import Mathlib

/-!
Verification development for the Calcudoku repository.

The repository solves 8×8 calcudoku puzzles.  `regions.py` defines the
region constraint classes (`PlusRegion`, `MinusRegion`, `TimesRegion`,
`DivideRegion`, `SudokuRegion` with the `RowRegion`/`ColumnRegion`
specialisations) with their `isvalid` / `fullvalid` / `partialvalid`
methods; `backtrack.py` and `solve.py` hold two revisions of the
recursive backtracking generator (they differ only in the progress
reporting, which is disabled here), and `interf.py` holds an older
revision that yields the shared mutable board without copying it.

Boards are flat lists of 64 optional digits.  Cell values are modelled
as `Int` (Python ints), an unfilled cell as `none`.
-/

/-- A board: Python uses a flat list of 64 entries, each `None` or an int. -/
abbrev Board := List (Option Int)

/-- `product` from regions.py: `reduce(mul, l, 1)`, a left fold. -/
def product (l : List Int) : Int :=
  l.foldl (· * ·) 1

/-- `skip_one` from regions.py: everything from the list except `item`,
the first time it occurs. -/
def skip_one : List Int → Int → List Int
  | [], _ => []
  | x :: xs, item => if x = item then xs else x :: skip_one xs item

/-- The value of Python's `max` on a list of ints.  Python raises on an
empty list; all call sites in regions.py pass non-empty lists (a full
region has size ≥ 1), so the `0` default is never observable there. -/
def list_max : List Int → Int
  | [] => 0
  | x :: xs => xs.foldl max x

/-- `partition_max` from regions.py: the maximum and all the rest. -/
def partition_max (l : List Int) : Int × List Int :=
  (list_max l, skip_one l (list_max l))

/-- The region classes of regions.py as a closed datatype: one
constructor per concrete class.  `SudokuRegion` carries no target
(Python passes `None`); `RowRegion` and `ColumnRegion` are
`SudokuRegion`s with computed positions. -/
inductive Region where
  | PlusRegion (target : Int) (positions : List Nat)
  | MinusRegion (target : Int) (positions : List Nat)
  | TimesRegion (target : Int) (positions : List Nat)
  | DivideRegion (target : Int) (positions : List Nat)
  | SudokuRegion (positions : List Nat)
deriving DecidableEq

/-- `RowRegion(start_pos)`: positions `[start_pos * 8 + i for i in range(8)]`. -/
def RowRegion (start_pos : Nat) : Region :=
  .SudokuRegion ((List.range 8).map (fun i => start_pos * 8 + i))

/-- `ColumnRegion(start_pos)`: positions `[i * 8 + start_pos for i in range(8)]`. -/
def ColumnRegion (start_pos : Nat) : Region :=
  .SudokuRegion ((List.range 8).map (fun i => i * 8 + start_pos))

/-- `self.positions` of a region. -/
def Region.positions : Region → List Nat
  | .PlusRegion _ p => p
  | .MinusRegion _ p => p
  | .TimesRegion _ p => p
  | .DivideRegion _ p => p
  | .SudokuRegion p => p

/-- `self.target` of a region (`None` for sudoku regions). -/
def Region.target : Region → Option Int
  | .PlusRegion t _ => some t
  | .MinusRegion t _ => some t
  | .TimesRegion t _ => some t
  | .DivideRegion t _ => some t
  | .SudokuRegion _ => none

/-- `self.size`, set to `len(positions)` at construction. -/
def Region.size (r : Region) : Nat :=
  r.positions.length

/-- `getsquares`: `[j for j in (board[i] for i in self.positions) if j]`.
Python truthiness drops both `None` and `0` values.  An out-of-range
index would raise in Python; it is modelled as an unfilled cell (it
never occurs for the 64-entry boards and in-range positions used
throughout). -/
def getsquaresAux (board : Board) : List Nat → List Int
  | [] => []
  | q :: qs =>
    match board.getD q none with
    | some j => if j ≠ 0 then j :: getsquaresAux board qs else getsquaresAux board qs
    | none => getsquaresAux board qs

/-- `Region.getsquares` from regions.py. -/
def Region.getsquares (r : Region) (board : Board) : List Int :=
  getsquaresAux board r.positions

/-- `fullvalid` of each concrete region class:
  * `PlusRegion`: `sum(squares) == self.target`
  * `TimesRegion`: `product(squares) == self.target`
  * `MinusRegion`: `m == sum(rest) + self.target` for `m, rest = partition_max(squares)`
  * `DivideRegion`: `m * self.target == product(rest)`
  * `SudokuRegion`: `len(set(squares)) == len(squares)` -/
def Region.fullvalid : Region → List Int → Bool
  | .PlusRegion t _, squares => squares.sum == t
  | .TimesRegion t _, squares => product squares == t
  | .MinusRegion t _, squares =>
    let p := partition_max squares
    p.1 == p.2.sum + t
  | .DivideRegion t _, squares =>
    let p := partition_max squares
    p.1 * t == product p.2
  | .SudokuRegion _, squares => squares.dedup.length == squares.length

/-- `partialvalid` (named `partvalid` here): the base-class default is
`True`, inherited by `MinusRegion` and `DivideRegion`; the overrides are
  * `PlusRegion`: `sum(squares) < self.target`
  * `TimesRegion`: `self.target % product(squares) == 0`
  * `SudokuRegion`: `self.fullvalid(squares)` -/
def Region.partvalid : Region → List Int → Bool
  | .PlusRegion t _, squares => decide (squares.sum < t)
  | .TimesRegion t _, squares => t % product squares == 0
  | .MinusRegion _ _, _ => true
  | .DivideRegion _ _, _ => true
  | .SudokuRegion p, squares => Region.fullvalid (.SudokuRegion p) squares

/-- `Region.isvalid` from regions.py: full check when every square of
the region is filled in, otherwise the partial check. -/
def Region.isvalid (r : Region) (board : Board) : Bool :=
  let squares := r.getsquares board
  if squares.length = r.size then r.fullvalid squares
  else r.partvalid squares

/-- The region index `regs`: for each position, the list of regions
containing it (built by `invert_regions` in the parsing layer). -/
abbrev RegIndex := List (List Region)

/-- `range(1, 9)`: the candidate digits tried at each cell. -/
def digitsList : List Int := [1, 2, 3, 4, 5, 6, 7, 8]

/-- `all(r.isvalid(board) for r in regs[pos])`, with the validity
predicate abstracted so that the pruned search and the search with
partial validity replaced by the constant true share one definition. -/
def checkCell (valid : Region → Board → Bool) (regs : RegIndex) (pos : Nat)
    (b : Board) : Bool :=
  (regs.getD pos []).all (fun r => valid r b)

/-- The digit loop `for i in range(1, 9)` of `_solve`, threading the
mutated board: set cell `pos` to `i`, and if every region touching the
cell accepts the state, descend via `next` (which returns the solutions
it yielded together with the board as the recursion left it).  The
digit is also handed to `next` so that the revisions that thread a
progress fraction can compute the child fraction from it. -/
def digitLoop (next : Int → Board → List Board × Board) (check : Board → Bool)
    (pos : Nat) : List Int → List Board × Board → List Board × Board
  | [], acc => acc
  | i :: rest, acc =>
    let b1 := acc.2.set pos (some i)
    if check b1 then
      let r := next i b1
      digitLoop next check pos rest (acc.1 ++ r.1, r.2)
    else
      digitLoop next check pos rest (acc.1, b1)

/-- The recursive `_solve` generator, generic in the validity predicate.
The first component collects the yielded solutions in order, the second
is the state of the shared board when the call returns (the source
mutates a single board in place and, after trying all 8 digits, clears
cell `pos` again).

The source recurses on `pos` and stops at `pos == len(board)`; since
`pos` starts at 0 and grows by 1, the recursion depth is bounded by the
board length, modelled by the structural `fuel` argument (the top-level
call passes `65 > 64`, so the fuel-0 case is unreachable; its value is
chosen to agree with the terminal case). -/
def solveGen (valid : Region → Board → Bool) :
    Nat → Board → RegIndex → Nat → List Board × Board
  | 0, b, _, _ => ([b], b)
  | fuel + 1, b, regs, pos =>
    if pos = b.length then ([b], b)
    else
      let r := digitLoop (fun _ b1 => solveGen valid fuel b1 regs (pos + 1))
        (checkCell valid regs pos) pos digitsList ([], b)
      (r.1, r.2.set pos none)

namespace Backtrack

/-- `_solve` from backtrack.py with `progress` disabled: identical to
`solveGen Region.isvalid` except that it also threads the coverage
`fraction` (`fraction + 8 ** -(pos + 1) * (i - 1)` for the branch of
digit `i`).  The source computes the fraction in floating point purely
for progress display; it is modelled exactly, as a rational, since it
never influences the control flow or the yielded boards. -/
def solveAux : Nat → Board → RegIndex → Nat → ℚ → List Board × Board
  | 0, b, _, _, _ => ([b], b)
  | fuel + 1, b, regs, pos, fraction =>
    if pos = b.length then ([b], b)
    else
      let r := digitLoop
        (fun i b1 => solveAux fuel b1 regs (pos + 1)
          (fraction + ((8 : ℚ) ^ (pos + 1))⁻¹ * ((i : ℚ) - 1)))
        (checkCell Region.isvalid regs pos) pos digitsList ([], b)
      (r.1, r.2.set pos none)

/-- `solve` from backtrack.py (progress disabled): run `_solve` on the
board `[None] * 64` from position 0 and fraction 0, and collect the
yielded solution copies. -/
def solve (regs : RegIndex) : List Board :=
  (solveAux 65 (List.replicate 64 none) regs 0 0).1

end Backtrack

namespace SolveMod

/-- `_solve` from solve.py with `progress` disabled.  With progress
reporting off, the body of solve.py's `_solve` is letter-for-letter the
body of backtrack.py's `_solve`; it is embedded separately so that the
equivalence of the two revisions is a theorem rather than a definition. -/
def solveAux : Nat → Board → RegIndex → Nat → ℚ → List Board × Board
  | 0, b, _, _, _ => ([b], b)
  | fuel + 1, b, regs, pos, fraction =>
    if pos = b.length then ([b], b)
    else
      let r := digitLoop
        (fun i b1 => solveAux fuel b1 regs (pos + 1)
          (fraction + ((8 : ℚ) ^ (pos + 1))⁻¹ * ((i : ℚ) - 1)))
        (checkCell Region.isvalid regs pos) pos digitsList ([], b)
      (r.1, r.2.set pos none)

/-- `solve` from solve.py (progress disabled). -/
def solve (regs : RegIndex) : List Board :=
  (solveAux 65 (List.replicate 64 none) regs 0 0).1

end SolveMod

/-- `isvalid` with every partial-validity check replaced by the constant
true: only full-validity checks prune. -/
def isvalidNP (r : Region) (board : Board) : Bool :=
  let squares := r.getsquares board
  if squares.length = r.size then r.fullvalid squares
  else true

/-- The search of backtrack.py with partial-validity checking disabled
(every partial check replaced by the constant true). -/
def solveNP (regs : RegIndex) : List Board :=
  (solveGen isvalidNP 65 (List.replicate 64 none) regs 0).1

namespace Consumer

/-- The search engine together with an explicit consumer of the yielded
boards.  `mutate` is the mutation the consumer applies to the object it
receives at each yield.  With `aliased = false` the engine yields a
fresh copy (`yield board.copy()` in backtrack.py and solve.py): the
consumer mutates its own copy and the engine's board is untouched.
With `aliased = true` the engine yields the shared board itself
(`yield board` in interf.py, line 43): the consumer's mutation writes
through the alias, so the engine resumes on the mutated board.  The
first component records the contents each yielded board had at the
moment it was yielded. -/
def solveAux (aliased : Bool) (mutate : Board → Board) :
    Nat → Board → RegIndex → Nat → List Board × Board
  | 0, b, _, _ => ([b], if aliased then mutate b else b)
  | fuel + 1, b, regs, pos =>
    if pos = b.length then ([b], if aliased then mutate b else b)
    else
      let r := digitLoop (fun _ b1 => solveAux aliased mutate fuel b1 regs (pos + 1))
        (checkCell Region.isvalid regs pos) pos digitsList ([], b)
      (r.1, r.2.set pos none)

/-- Run the engine-with-consumer from the initial `[None] * 64` board. -/
def solve (aliased : Bool) (mutate : Board → Board) (regs : RegIndex) : List Board :=
  (solveAux aliased mutate 65 (List.replicate 64 none) regs 0).1

end Consumer

/-- All cells at positions `≥ pos` of the board are empty.  This is the
half of the search invariant restored by `board[pos] = None`. -/
def emptyFrom (pos : Nat) (b : Board) : Prop :=
  ∀ j, j < b.length → pos ≤ j → b.getD j none = none

/-- All cells at positions `< pos` hold one of the candidate digits. -/
def filledBelow (pos : Nat) (b : Board) : Prop :=
  ∀ j, j < b.length → j < pos → ∃ d, d ∈ digitsList ∧ b.getD j none = some d

/-- Well-formedness of a region index, as the spec states it: 64
entries; every region appearing in the index has its positions within
0..63 and is listed at the index entry of every one of its positions;
and every cell is covered by at least one region. -/
def WFIndex (regs : RegIndex) : Prop :=
  regs.length = 64 ∧
  (∀ e ∈ regs, ∀ r ∈ e, ∀ q ∈ r.positions, q < 64 ∧ r ∈ regs.getD q []) ∧
  (∀ p, p < 64 → ∃ r ∈ regs.getD p [], p ∈ r.positions)

/-- A fully assigned 64-cell board with digits from `digitsList` that
every region of the index accepts. -/
def isSolution (regs : RegIndex) (b : Board) : Prop :=
  b.length = 64 ∧
  (∀ j, j < 64 → ∃ d, d ∈ digitsList ∧ b.getD j none = some d) ∧
  (∀ p, ∀ r ∈ regs.getD p [], r.isvalid b = true)

/-- The board truncated at `k`: cells below `k` kept, the rest cleared.
`truncAt (p + 1) sol` is exactly the state the shared board was in when
the search had just committed `sol`'s digit at position `p`. -/
def truncAt : Nat → Board → Board
  | _, [] => []
  | 0, _ :: bs => none :: truncAt 0 bs
  | k + 1, o :: bs => o :: truncAt k bs

/-- A full board read as a digit sequence, position 0 most significant. -/
def boardKey (b : Board) : List Int :=
  b.map (fun o => o.getD 0)

/-- Strict lexicographic order on boards read as digit sequences. -/
def boardLex (a b : Board) : Prop :=
  List.Lex (· < ·) (boardKey a) (boardKey b)

/-- The region is not a Sum region with nonpositive target.  A Sum
region's partial check `sum(squares) < target` rejects even an entirely
empty square list when the target is `≤ 0`. -/
def plusTargetOK : Region → Bool
  | .PlusRegion t _ => decide (0 < t)
  | _ => true

/-- A synthetic puzzle: every cell carries a singleton Sum region with
target 1, forcing the all-ones board as the unique solution. -/
def singletonRegs : RegIndex :=
  (List.range 64).map (fun p => [Region.PlusRegion 1 [p]])

/-- A synthetic puzzle: cells 0..61 are singleton Sum regions with
target 1; cells 62 and 63 share one Sum region with target 5, giving
exactly the four solutions (1,4), (2,3), (3,2), (4,1) in those cells. -/
def pairRegs : RegIndex :=
  (List.range 62).map (fun p => [Region.PlusRegion 1 [p]])
    ++ [[Region.PlusRegion 5 [62, 63]], [Region.PlusRegion 5 [62, 63]]]

/-- A consumer that writes the digit 2 into cell 5 of the board it is
handed at a yield. -/
def mutateCell5 : Board → Board := fun b => b.set 5 (some 2)

instance (pos : Nat) (b : Board) : Decidable (emptyFrom pos b) := by
  unfold emptyFrom
  infer_instance

instance (pos : Nat) (b : Board) : Decidable (filledBelow pos b) := by
  unfold filledBelow
  infer_instance

instance (regs : RegIndex) : Decidable (WFIndex regs) := by
  unfold WFIndex
  infer_instance

/-! ### Basic board lemmas -/

theorem getD_set_self (l : Board) (i : Nat) (v : Option Int) (h : i < l.length) :
    (l.set i v).getD i none = v := by
  simp [List.getD_eq_getElem?_getD, List.getElem?_set, h]

theorem getD_set_ne (l : Board) {i j : Nat} (v : Option Int) (h : i ≠ j) :
    (l.set i v).getD j none = l.getD j none := by
  simp [List.getD_eq_getElem?_getD, List.getElem?_set, h]

theorem board_ext : ∀ {a b : Board}, a.length = b.length →
    (∀ j, a.getD j none = b.getD j none) → a = b
  | [], [], _, _ => rfl
  | x :: xs, y :: ys, hl, h => by
    have h0 := h 0
    simp [List.getD] at h0
    have : xs = ys := board_ext (by simpa using hl) (fun j => by simpa using h (j + 1))
    rw [h0, this]

theorem set_none_of_getD_none (l : Board) (i : Nat) (h : l.getD i none = none) :
    l.set i none = l := by
  refine board_ext (by simp) (fun j => ?_)
  rcases eq_or_ne i j with rfl | hne
  · rcases Nat.lt_or_ge i l.length with hi | hi
    · rw [getD_set_self l i none hi, h]
    · rw [List.set_eq_of_length_le hi]
  · exact getD_set_ne l none hne

theorem length_truncAt : ∀ (k : Nat) (b : Board), (truncAt k b).length = b.length
  | k, [] => by cases k <;> rfl
  | 0, _ :: bs => by simpa [truncAt] using length_truncAt 0 bs
  | k + 1, _ :: bs => by simpa [truncAt] using length_truncAt k bs

theorem getD_truncAt : ∀ (k : Nat) (b : Board) (j : Nat),
    (truncAt k b).getD j none = if j < k then b.getD j none else none
  | k, [], j => by cases k <;> simp [truncAt]
  | 0, o :: bs, 0 => by simp [truncAt]
  | 0, o :: bs, j + 1 => by simpa [truncAt] using getD_truncAt 0 bs j
  | k + 1, o :: bs, 0 => by simp [truncAt]
  | k + 1, o :: bs, j + 1 => by
    simpa [truncAt, Nat.succ_lt_succ_iff] using getD_truncAt k bs j

theorem emptyFrom_set {pos : Nat} {b : Board} (h : emptyFrom pos b) (v : Option Int) :
    emptyFrom (pos + 1) (b.set pos v) := by
  intro j hj hpj
  rw [List.length_set] at hj
  rw [getD_set_ne b v (by omega)]
  exact h j hj (by omega)

theorem filledBelow_set {pos : Nat} {b : Board} (h : filledBelow pos b) {i : Int}
    (hi : i ∈ digitsList) (hpos : pos < b.length) :
    filledBelow (pos + 1) (b.set pos (some i)) := by
  intro j hj hpj
  rw [List.length_set] at hj
  rcases eq_or_ne j pos with rfl | hne
  · exact ⟨i, hi, getD_set_self b j (some i) hpos⟩
  · rw [getD_set_ne b (some i) (Ne.symm hne)]
    exact h j hj (by omega)

/-! ### getsquares lemmas -/

theorem getsquaresAux_cons_some {b : Board} {q : Nat} {d : Int} (qs : List Nat)
    (hd : b.getD q none = some d) (hd0 : d ≠ 0) :
    getsquaresAux b (q :: qs) = d :: getsquaresAux b qs := by
  simp only [getsquaresAux]
  rw [hd]
  simp [hd0]

theorem getsquaresAux_cons_zero {b : Board} {q : Nat} (qs : List Nat)
    (hd : b.getD q none = some 0) :
    getsquaresAux b (q :: qs) = getsquaresAux b qs := by
  simp only [getsquaresAux]
  rw [hd]
  simp

theorem getsquaresAux_cons_none {b : Board} {q : Nat} (qs : List Nat)
    (hd : b.getD q none = none) :
    getsquaresAux b (q :: qs) = getsquaresAux b qs := by
  simp only [getsquaresAux]
  rw [hd]

theorem getsquaresAux_congr {a b : Board} : ∀ {ps : List Nat},
    (∀ q ∈ ps, a.getD q none = b.getD q none) → getsquaresAux a ps = getsquaresAux b ps
  | [], _ => rfl
  | q :: qs, h => by
    have hq := h q (by simp)
    have ih := @getsquaresAux_congr a b qs
      (fun x hx => h x (by simp [hx]))
    rcases hb : b.getD q none with _ | d
    · rw [getsquaresAux_cons_none qs (hq.trans hb),
        getsquaresAux_cons_none qs hb, ih]
    · by_cases hd0 : d = 0
      · subst hd0
        rw [getsquaresAux_cons_zero qs (hq.trans hb),
          getsquaresAux_cons_zero qs hb, ih]
      · rw [getsquaresAux_cons_some qs (hq.trans hb) hd0,
          getsquaresAux_cons_some qs hb hd0, ih]

theorem getsquaresAux_nil_of_none {b : Board} : ∀ {ps : List Nat},
    (∀ q ∈ ps, b.getD q none = none) → getsquaresAux b ps = []
  | [], _ => rfl
  | q :: qs, h => by
    rw [getsquaresAux_cons_none qs (h q (by simp))]
    exact getsquaresAux_nil_of_none (fun x hx => h x (by simp [hx]))

theorem getsquaresAux_length_of_filled {b : Board} : ∀ {ps : List Nat},
    (∀ q ∈ ps, ∃ d, b.getD q none = some d ∧ d ≠ 0) →
    (getsquaresAux b ps).length = ps.length
  | [], _ => rfl
  | q :: qs, h => by
    obtain ⟨d, hd, hd0⟩ := h q (by simp)
    have ih := @getsquaresAux_length_of_filled b qs
      (fun x hx => h x (by simp [hx]))
    rw [getsquaresAux_cons_some qs hd hd0]
    simp [ih]

theorem mem_getsquaresAux {b : Board} {x : Int} : ∀ {ps : List Nat},
    x ∈ getsquaresAux b ps → ∃ q ∈ ps, b.getD q none = some x
  | [], h => by simp [getsquaresAux] at h
  | q :: qs, h => by
    have step : x ∈ getsquaresAux b qs → ∃ p ∈ q :: qs, b.getD p none = some x := by
      intro h2
      obtain ⟨p, hp, hbp⟩ := mem_getsquaresAux h2
      exact ⟨p, by simp [hp], hbp⟩
    rcases hb : b.getD q none with _ | d
    · exact step (by rwa [getsquaresAux_cons_none qs hb] at h)
    · by_cases hd0 : d = 0
      · subst hd0
        exact step (by rwa [getsquaresAux_cons_zero qs hb] at h)
      · rw [getsquaresAux_cons_some qs hb hd0] at h
        rcases List.mem_cons.mp h with rfl | h2
        · exact ⟨q, by simp, hb⟩
        · exact step h2

theorem getsquaresAux_sublist {b1 sol : Board} : ∀ {ps : List Nat},
    (∀ q ∈ ps, b1.getD q none = none ∨ b1.getD q none = sol.getD q none) →
    List.Sublist (getsquaresAux b1 ps) (getsquaresAux sol ps)
  | [], _ => List.Sublist.refl _
  | q :: qs, h => by
    have ih := @getsquaresAux_sublist b1 sol qs
      (fun x hx => h x (by simp [hx]))
    rcases h q (by simp) with hq | hq
    · rcases hsol : sol.getD q none with _ | d
      · rw [getsquaresAux_cons_none qs hq, getsquaresAux_cons_none qs hsol]
        exact ih
      · by_cases hd0 : d = 0
        · subst hd0
          rw [getsquaresAux_cons_none qs hq, getsquaresAux_cons_zero qs hsol]
          exact ih
        · rw [getsquaresAux_cons_none qs hq, getsquaresAux_cons_some qs hsol hd0]
          exact ih.cons d
    · rcases hsol : sol.getD q none with _ | d
      · rw [getsquaresAux_cons_none qs (hq.trans hsol),
          getsquaresAux_cons_none qs hsol]
        exact ih
      · by_cases hd0 : d = 0
        · subst hd0
          rw [getsquaresAux_cons_zero qs (hq.trans hsol),
            getsquaresAux_cons_zero qs hsol]
          exact ih
        · rw [getsquaresAux_cons_some qs (hq.trans hsol) hd0,
            getsquaresAux_cons_some qs hsol hd0]
          exact ih.cons₂ d

/-! ### digit-loop lemmas -/

theorem digitLoop_congr {next1 next2 : Int → Board → List Board × Board}
    {check : Board → Bool} {pos : Nat}
    (h : ∀ i b, next1 i b = next2 i b) :
    ∀ (l : List Int) (acc : List Board × Board),
      digitLoop next1 check pos l acc = digitLoop next2 check pos l acc
  | [], _ => rfl
  | i :: rest, acc => by
    simp only [digitLoop, h]
    by_cases hc : check (acc.2.set pos (some i)) <;>
      simp [hc, digitLoop_congr h rest]

theorem digitLoop_snd_inv {next : Int → Board → List Board × Board}
    {check : Board → Bool} {pos : Nat} {b : Board}
    (hnext : ∀ i b', b' = b.set pos (some i) → (next i b').2 = b') :
    ∀ (l : List Int) (sols : List Board) (b0 : Board),
      (b0 = b ∨ ∃ j, b0 = b.set pos (some j)) →
      ((digitLoop next check pos l (sols, b0)).2 = b0 ∨
        ∃ j, (digitLoop next check pos l (sols, b0)).2 = b.set pos (some j))
  | [], sols, b0, _ => by simp [digitLoop]
  | i :: rest, sols, b0, hb0 => by
    have hset : b0.set pos (some i) = b.set pos (some i) := by
      rcases hb0 with rfl | ⟨j, rfl⟩
      · rfl
      · rw [List.set_set]
    simp only [digitLoop]
    by_cases hc : check (b0.set pos (some i))
    · simp only [if_pos hc]
      have h2 := hnext i (b0.set pos (some i)) hset
      rcases digitLoop_snd_inv hnext rest (sols ++ (next i (b0.set pos (some i))).1)
          ((next i (b0.set pos (some i))).2) (Or.inr ⟨i, h2.trans hset⟩) with h3 | h3
      · exact Or.inr ⟨i, h3.trans (h2.trans hset)⟩
      · exact Or.inr h3
    · simp only [if_neg hc]
      rcases digitLoop_snd_inv hnext rest sols (b0.set pos (some i))
          (Or.inr ⟨i, hset⟩) with h3 | h3
      · exact Or.inr ⟨i, h3.trans hset⟩
      · exact Or.inr h3

theorem digitLoop_fst_inv {next : Int → Board → List Board × Board}
    {check : Board → Bool} {pos : Nat} {b : Board}
    (hnext : ∀ i b', b' = b.set pos (some i) → (next i b').2 = b') :
    ∀ (l : List Int) (sols : List Board) (b0 : Board),
      (b0 = b ∨ ∃ j, b0 = b.set pos (some j)) →
      (digitLoop next check pos l (sols, b0)).1 =
        sols ++ l.flatMap (fun i =>
          if check (b.set pos (some i)) then (next i (b.set pos (some i))).1 else [])
  | [], sols, b0, _ => by simp [digitLoop]
  | i :: rest, sols, b0, hb0 => by
    have hset : b0.set pos (some i) = b.set pos (some i) := by
      rcases hb0 with rfl | ⟨j, rfl⟩
      · rfl
      · rw [List.set_set]
    simp only [digitLoop, List.flatMap_cons]
    rw [hset]
    by_cases hc : check (b.set pos (some i))
    · simp only [if_pos hc]
      have h2 : (next i (b.set pos (some i))).2 = b.set pos (some i) :=
        hnext i (b.set pos (some i)) rfl
      rw [digitLoop_fst_inv hnext rest _ _ (Or.inr ⟨i, h2⟩)]
      simp
    · simp only [if_neg hc]
      rw [digitLoop_fst_inv hnext rest _ _ (Or.inr ⟨i, rfl⟩)]
      simp

/-! ### Engine structure lemmas -/

/-- The getD value of a cell past the end of the board. -/
theorem getD_of_length_le {b : Board} {j : Nat} (h : b.length ≤ j) :
    b.getD j none = none := by
  simp [List.getD_eq_getElem?_getD, List.getElem?_eq_none h]

/-- On return, `_solve` leaves the shared board exactly as it received
it: `board[pos] = None` after the digit loop restores the invariant. -/
theorem solveGen_snd (valid : Region → Board → Bool) :
    ∀ (fuel : Nat) (b : Board) (regs : RegIndex) (pos : Nat),
      emptyFrom pos b → (solveGen valid fuel b regs pos).2 = b
  | 0, b, regs, pos, _ => rfl
  | fuel + 1, b, regs, pos, h => by
    rw [solveGen]
    by_cases hp : pos = b.length
    · simp [hp]
    · simp only [if_neg hp]
      have hnext : ∀ (i : Int) (b' : Board), b' = b.set pos (some i) →
          ((fun (_ : Int) b1 => solveGen valid fuel b1 regs (pos + 1)) i b').2 = b' := by
        intro i b' hb'
        subst hb'
        exact solveGen_snd valid fuel _ regs (pos + 1) (emptyFrom_set h _)
      have hpn : b.getD pos none = none := by
        rcases Nat.lt_or_ge pos b.length with hlt | hge
        · exact h pos hlt (Nat.le_refl pos)
        · exact getD_of_length_le hge
      rcases digitLoop_snd_inv hnext digitsList [] b (Or.inl rfl) with h1 | ⟨j, h1⟩
      · rw [h1]
        exact set_none_of_getD_none b pos hpn
      · rw [h1, List.set_set]
        exact set_none_of_getD_none b pos hpn

/-- The solutions yielded at a non-terminal cell: one batch per digit
`1..8` in order, each batch coming from the branch that committed that
digit, with branches whose cell check fails contributing nothing. -/
theorem solveGen_shape (valid : Region → Board → Bool) {fuel : Nat} {b : Board}
    {regs : RegIndex} {pos : Nat} (hp : pos ≠ b.length) (he : emptyFrom pos b) :
    (solveGen valid (fuel + 1) b regs pos).1 =
      digitsList.flatMap (fun i =>
        if checkCell valid regs pos (b.set pos (some i))
        then (solveGen valid fuel (b.set pos (some i)) regs (pos + 1)).1 else []) := by
  rw [solveGen]
  simp only [if_neg hp]
  have hnext : ∀ (i : Int) (b' : Board), b' = b.set pos (some i) →
      ((fun (_ : Int) b1 => solveGen valid fuel b1 regs (pos + 1)) i b').2 = b' := by
    intro i b' hb'
    subst hb'
    exact solveGen_snd valid fuel _ regs (pos + 1) (emptyFrom_set he _)
  rw [digitLoop_fst_inv hnext digitsList [] b (Or.inl rfl)]
  simp

/-- Every yielded solution has the board's length, extends the received
board below `pos`, and carries a candidate digit in every cell from
`pos` on. -/
theorem solveGen_mem_fst (valid : Region → Board → Bool) (regs : RegIndex) :
    ∀ (fuel pos : Nat) (b sol : Board),
      b.length ≤ pos + fuel → emptyFrom pos b →
      sol ∈ (solveGen valid fuel b regs pos).1 →
      sol.length = b.length ∧
      (∀ j, j < pos → sol.getD j none = b.getD j none) ∧
      (∀ j, pos ≤ j → j < b.length → ∃ d, d ∈ digitsList ∧ sol.getD j none = some d)
  | 0, pos, b, sol, hf, _, hm => by
    simp only [solveGen, List.mem_singleton] at hm
    subst hm
    refine ⟨rfl, fun j _ => rfl, fun j hj1 hj2 => absurd hj2 ?_⟩
    omega
  | fuel + 1, pos, b, sol, hf, he, hm => by
    by_cases hp : pos = b.length
    · rw [solveGen] at hm
      simp only [if_pos hp, List.mem_singleton] at hm
      subst hm
      refine ⟨rfl, fun j _ => rfl, fun j hj1 hj2 => absurd hj2 ?_⟩
      omega
    · rw [solveGen_shape valid hp he] at hm
      rcases List.mem_flatMap.mp hm with ⟨i, hi, hm2⟩
      by_cases hc : checkCell valid regs pos (b.set pos (some i))
      · rw [if_pos hc] at hm2
        have hf2 : (b.set pos (some i)).length ≤ (pos + 1) + fuel := by
          rw [List.length_set]; omega
        obtain ⟨ihlen, ihlow, ihhigh⟩ := solveGen_mem_fst valid regs fuel (pos + 1)
          (b.set pos (some i)) sol hf2 (emptyFrom_set he _) hm2
        have hlen : sol.length = b.length := by
          rw [ihlen, List.length_set]
        refine ⟨hlen, fun j hj => ?_, fun j hj1 hj2 => ?_⟩
        · rw [ihlow j (by omega), getD_set_ne b (some i) (by omega)]
        · rcases eq_or_ne j pos with rfl | hne
          · refine ⟨i, hi, ?_⟩
            rw [ihlow j (by omega), getD_set_self b j (some i) hj2]
          · exact ihhigh j (by omega) (by rw [List.length_set]; omega)
      · rw [if_neg hc] at hm2
        simp at hm2

/-- Every yielded solution passed, along its path, the cell check of
every position: the check at `p` ran on the board as it stood right
after `p`'s digit was committed, which is the solution truncated at
`p + 1`. -/
theorem solveGen_checks (valid : Region → Board → Bool) (regs : RegIndex) :
    ∀ (fuel pos : Nat) (b sol : Board),
      b.length ≤ pos + fuel → emptyFrom pos b →
      sol ∈ (solveGen valid fuel b regs pos).1 →
      ∀ p2, pos ≤ p2 → p2 < b.length →
        checkCell valid regs p2 (truncAt (p2 + 1) sol) = true
  | 0, pos, b, sol, hf, _, _ => by
    intro p2 h1 h2
    omega
  | fuel + 1, pos, b, sol, hf, he, hm => by
    by_cases hp : pos = b.length
    · intro p2 h1 h2
      omega
    · rw [solveGen_shape valid hp he] at hm
      rcases List.mem_flatMap.mp hm with ⟨i, hi, hm2⟩
      by_cases hc : checkCell valid regs pos (b.set pos (some i))
      · rw [if_pos hc] at hm2
        have hf2 : (b.set pos (some i)).length ≤ (pos + 1) + fuel := by
          rw [List.length_set]; omega
        have he2 := emptyFrom_set he (some i)
        obtain ⟨ihlen, ihlow, _⟩ := solveGen_mem_fst valid regs fuel (pos + 1)
          (b.set pos (some i)) sol hf2 he2 hm2
        intro p2 h1 h2
        rcases eq_or_ne p2 pos with rfl | hne
        · have heq : truncAt (p2 + 1) sol = b.set p2 (some i) := by
            refine board_ext ?_ (fun j => ?_)
            · rw [length_truncAt, ihlen]
            · rw [getD_truncAt]
              by_cases hj : j < p2 + 1
              · rw [if_pos hj]
                exact ihlow j hj
              · rw [if_neg hj]
                rw [getD_set_ne b (some i) (by omega)]
                rcases Nat.lt_or_ge j b.length with hjl | hjl
                · exact (he j hjl (by omega)).symm
                · exact (getD_of_length_le hjl).symm
          rw [heq]
          exact hc
        · exact solveGen_checks valid regs fuel (pos + 1) (b.set pos (some i)) sol
            hf2 he2 hm2 p2 (by omega) (by rw [List.length_set]; omega)
      · rw [if_neg hc] at hm2
        simp at hm2

theorem flatMap_length_le {α β : Type} (m : Nat) :
    ∀ (l : List α) (f : α → List β), (∀ i ∈ l, (f i).length ≤ m) →
      (l.flatMap f).length ≤ l.length * m
  | [], _, _ => by simp
  | i :: rest, f, h => by
    have ih := flatMap_length_le m rest f (fun x hx => h x (by simp [hx]))
    have hi := h i (by simp)
    simp only [List.flatMap_cons, List.length_append, List.length_cons]
    calc (f i).length + (rest.flatMap f).length ≤ m + rest.length * m := by omega
    _ = (rest.length + 1) * m := by ring

/-- The number of yielded solutions is bounded by the number of leaves
of the full digit tree below the current position. -/
theorem solveGen_fst_length (valid : Region → Board → Bool) (regs : RegIndex) :
    ∀ (fuel pos : Nat) (b : Board), b.length ≤ pos + fuel → pos ≤ b.length →
      emptyFrom pos b →
      (solveGen valid fuel b regs pos).1.length ≤ 8 ^ (b.length - pos)
  | 0, pos, b, hf, hpos, _ => by
    simp only [solveGen, List.length_singleton]
    exact Nat.one_le_pow _ _ (by omega)
  | fuel + 1, pos, b, hf, hpos, he => by
    by_cases hp : pos = b.length
    · rw [solveGen]
      simp only [if_pos hp, List.length_singleton]
      exact Nat.one_le_pow _ _ (by omega)
    · rw [solveGen_shape valid hp he]
      have hlt : pos < b.length := by omega
      have hbound : ∀ i ∈ digitsList,
          ((if checkCell valid regs pos (b.set pos (some i))
            then (solveGen valid fuel (b.set pos (some i)) regs (pos + 1)).1
            else []).length) ≤ 8 ^ (b.length - (pos + 1)) := by
        intro i _
        by_cases hc : checkCell valid regs pos (b.set pos (some i))
        · rw [if_pos hc]
          have hb := solveGen_fst_length valid regs fuel (pos + 1) (b.set pos (some i))
            (by rw [List.length_set]; omega) (by rw [List.length_set]; omega)
            (emptyFrom_set he _)
          rw [List.length_set] at hb
          exact hb
        · rw [if_neg hc]
          simp only [List.length_nil]
          exact Nat.zero_le _
      have := flatMap_length_le (8 ^ (b.length - (pos + 1))) digitsList _ hbound
      calc (digitsList.flatMap _).length ≤ digitsList.length * 8 ^ (b.length - (pos + 1)) :=
            this
      _ = 8 ^ (b.length - pos) := by
            have : b.length - pos = (b.length - (pos + 1)) + 1 := by omega
            rw [this]
            simp [digitsList, Nat.pow_succ, Nat.mul_comm]

/-! ### The concrete engines all compute `solveGen Region.isvalid` -/

theorem backtrack_solveAux_eq (regs : RegIndex) :
    ∀ (fuel : Nat) (b : Board) (pos : Nat) (f : ℚ),
      Backtrack.solveAux fuel b regs pos f = solveGen Region.isvalid fuel b regs pos
  | 0, _, _, _ => rfl
  | fuel + 1, b, pos, f => by
    rw [Backtrack.solveAux, solveGen]
    by_cases hp : pos = b.length
    · simp [hp]
    · simp only [if_neg hp]
      rw [digitLoop_congr
        (fun i b1 => backtrack_solveAux_eq regs fuel b1 (pos + 1)
          (f + ((8 : ℚ) ^ (pos + 1))⁻¹ * ((i : ℚ) - 1)))
        digitsList ([], b)]

theorem solvemod_solveAux_eq (regs : RegIndex) :
    ∀ (fuel : Nat) (b : Board) (pos : Nat) (f : ℚ),
      SolveMod.solveAux fuel b regs pos f = solveGen Region.isvalid fuel b regs pos
  | 0, _, _, _ => rfl
  | fuel + 1, b, pos, f => by
    rw [SolveMod.solveAux, solveGen]
    by_cases hp : pos = b.length
    · simp [hp]
    · simp only [if_neg hp]
      rw [digitLoop_congr
        (fun i b1 => solvemod_solveAux_eq regs fuel b1 (pos + 1)
          (f + ((8 : ℚ) ^ (pos + 1))⁻¹ * ((i : ℚ) - 1)))
        digitsList ([], b)]

theorem consumer_solveAux_eq (mutate : Board → Board) (regs : RegIndex) :
    ∀ (fuel : Nat) (b : Board) (pos : Nat),
      Consumer.solveAux false mutate fuel b regs pos = solveGen Region.isvalid fuel b regs pos
  | 0, _, _ => rfl
  | fuel + 1, b, pos => by
    rw [Consumer.solveAux, solveGen]
    by_cases hp : pos = b.length
    · simp [hp]
    · simp only [if_neg hp]
      rw [digitLoop_congr
        (fun i b1 => consumer_solveAux_eq mutate regs fuel b1 (pos + 1))
        digitsList ([], b)]

theorem backtrack_solve_eq (regs : RegIndex) :
    Backtrack.solve regs = (solveGen Region.isvalid 65 (List.replicate 64 none) regs 0).1 := by
  rw [Backtrack.solve, backtrack_solveAux_eq]

/-- The initial board `[None] * 64` is entirely empty. -/
theorem emptyFrom_start : emptyFrom 0 (List.replicate 64 (none : Option Int)) := by
  intro j hj _
  rw [List.length_replicate] at hj
  rw [List.getD_eq_getElem?_getD, List.getElem?_replicate, if_pos hj]
  rfl

/-- Every cell of the initial board is below `pos = 0`. -/
theorem filledBelow_start : filledBelow 0 (List.replicate 64 (none : Option Int)) := by
  intro j _ hj
  omega

/-! ### Region validity on full boards -/

theorem exists_max_nat : ∀ (l : List Nat), l ≠ [] → ∃ m ∈ l, ∀ x ∈ l, x ≤ m
  | [], h => absurd rfl h
  | [x], _ => ⟨x, by simp⟩
  | x :: y :: rest, _ => by
    obtain ⟨m, hm, hmax⟩ := exists_max_nat (y :: rest) (by simp)
    rcases Nat.le_total x m with hx | hx
    · refine ⟨m, by simp [hm], fun z hz => ?_⟩
      rcases List.mem_cons.mp hz with rfl | hz
      · exact hx
      · exact hmax z hz
    · refine ⟨x, by simp, fun z hz => ?_⟩
      rcases List.mem_cons.mp hz with rfl | hz
      · exact Nat.le_refl z
      · exact (hmax z hz).trans hx

/-- `isvalid` reads the board only through `getsquares`. -/
theorem isvalid_congr {r : Region} {a b : Board}
    (h : r.getsquares a = r.getsquares b) : r.isvalid a = r.isvalid b := by
  simp only [Region.isvalid, h]

/-- On a board where all the region's squares are filled with nonzero
values, `isvalid` dispatches to the full check. -/
theorem isvalid_of_filled {r : Region} {b : Board}
    (h : ∀ q ∈ r.positions, ∃ d, b.getD q none = some d ∧ d ≠ 0) :
    r.isvalid b = r.fullvalid (r.getsquares b) := by
  simp only [Region.isvalid]
  rw [if_pos]
  exact getsquaresAux_length_of_filled h

/-- A board passing all the per-position checks along a full search path
satisfies every region of a well-formed index: the region was fully
checked at the moment its largest position was filled, and no later
assignment touches its squares. -/
theorem region_isvalid_of_checks {regs : RegIndex} (hwf : WFIndex regs)
    {sol : Board} (hlen : sol.length = 64)
    (hfill : ∀ j, j < 64 → ∃ d, d ∈ digitsList ∧ sol.getD j none = some d)
    (hchecks : ∀ p2, p2 < 64 →
      checkCell Region.isvalid regs p2 (truncAt (p2 + 1) sol) = true) :
    ∀ p, ∀ r ∈ regs.getD p [], r.isvalid sol = true := by
  intro p r hr
  have hp : p < regs.length := by
    by_contra hcon
    rw [List.getD_eq_default regs [] (by omega)] at hr
    simp at hr
  have he : regs.getD p [] ∈ regs := by
    rw [List.getD_eq_getElem regs [] hp]
    exact List.getElem_mem hp
  have hprops := hwf.2.1 _ he r hr
  have h64 : regs.length = 64 := hwf.1
  by_cases hps : r.positions = []
  · have hc := hchecks p (by omega)
    have hv := List.all_eq_true.mp hc r hr
    have hsq : r.getsquares (truncAt (p + 1) sol) = r.getsquares sol := by
      rw [Region.getsquares, Region.getsquares, hps]
      rfl
    rw [← isvalid_congr hsq]
    exact hv
  · obtain ⟨m, hm, hmax⟩ := exists_max_nat r.positions hps
    obtain ⟨hm64, hmem⟩ := hprops m hm
    have hc := hchecks m hm64
    have hv := List.all_eq_true.mp hc r hmem
    have hsq : r.getsquares (truncAt (m + 1) sol) = r.getsquares sol := by
      rw [Region.getsquares, Region.getsquares]
      apply getsquaresAux_congr
      intro q hq
      rw [getD_truncAt, if_pos (by have := hmax q hq; omega)]
    rw [← isvalid_congr hsq]
    exact hv

/-- Soundness of the backtracking engine on a well-formed region index:
every yielded board is a solution. -/
theorem solve_sound {regs : RegIndex} (hwf : WFIndex regs) {sol : Board}
    (hm : sol ∈ Backtrack.solve regs) : isSolution regs sol := by
  rw [backtrack_solve_eq] at hm
  obtain ⟨hlen, _, hfill⟩ := solveGen_mem_fst Region.isvalid regs 65 0 _ sol
    (by simp) emptyFrom_start hm
  have hchecks := solveGen_checks Region.isvalid regs 65 0 _ sol
    (by simp) emptyFrom_start hm
  have hlen64 : sol.length = 64 := by simpa using hlen
  have hfill64 : ∀ j, j < 64 → ∃ d, d ∈ digitsList ∧ sol.getD j none = some d :=
    fun j hj => hfill j (Nat.zero_le j) (by simpa using hj)
  exact ⟨hlen64, hfill64,
    region_isvalid_of_checks hwf hlen64 hfill64
      (fun p2 hp2 => hchecks p2 (Nat.zero_le p2) (by simpa using hp2))⟩

/-! ### Lexicographic enumeration order -/

theorem getD_boardKey {b : Board} {m : Nat} (h : m < b.length) :
    (boardKey b).getD m 0 = (b.getD m none).getD 0 := by
  simp [boardKey, List.getD_eq_getElem?_getD, List.getElem?_eq_getElem h]

theorem length_boardKey (b : Board) : (boardKey b).length = b.length := by
  simp [boardKey]

theorem lex_of_eq_lt : ∀ (x y : List Int) (k : Nat),
    k < x.length → k < y.length →
    (∀ m, m < k → x.getD m 0 = y.getD m 0) → x.getD k 0 < y.getD k 0 →
    List.Lex (· < ·) x y
  | [], _, k, hx, _, _, _ => absurd hx (by simp)
  | _ :: _, [], k, _, hy, _, _ => absurd hy (by simp)
  | a :: xs, c :: ys, 0, _, _, _, hk => List.Lex.rel (by simpa using hk)
  | a :: xs, c :: ys, k + 1, hx, hy, hagree, hk => by
    have h0 : a = c := by simpa using hagree 0 (by omega)
    subst h0
    exact List.Lex.cons (lex_of_eq_lt xs ys k (by simpa using hx) (by simpa using hy)
      (fun m hm => by simpa using hagree (m + 1) (by omega)) (by simpa using hk))

theorem boardLex_of {a c : Board} {k : Nat} {da dc : Int} (hlen : a.length = c.length)
    (hk : k < a.length)
    (hagree : ∀ m, m < k → a.getD m none = c.getD m none)
    (hda : a.getD k none = some da) (hdc : c.getD k none = some dc)
    (hlt : da < dc) : boardLex a c := by
  apply lex_of_eq_lt (boardKey a) (boardKey c) k
  · rw [length_boardKey]
    exact hk
  · rw [length_boardKey, ← hlen]
    exact hk
  · intro m hm
    rw [getD_boardKey (by omega), getD_boardKey (by rw [← hlen]; omega), hagree m hm]
  · rw [getD_boardKey hk, getD_boardKey (by rw [← hlen]; exact hk), hda, hdc]
    simpa using hlt

/-- The solutions of any search subtree are yielded in strictly
ascending lexicographic order of the board read as a digit sequence. -/
theorem solveGen_pairwise (valid : Region → Board → Bool) (regs : RegIndex) :
    ∀ (fuel pos : Nat) (b : Board),
      b.length ≤ pos + fuel → pos ≤ b.length → emptyFrom pos b →
      ((solveGen valid fuel b regs pos).1).Pairwise boardLex
  | 0, pos, b, _, _, _ => by simp [solveGen]
  | fuel + 1, pos, b, hf, hpos, he => by
    by_cases hp : pos = b.length
    · rw [solveGen]
      simp [hp]
    · rw [solveGen_shape valid hp he, List.flatMap_def, List.pairwise_flatten]
      have hlt : pos < b.length := by omega
      constructor
      · intro l hl
        rcases List.mem_map.mp hl with ⟨i, _, rfl⟩
        by_cases hc : checkCell valid regs pos (b.set pos (some i))
        · rw [if_pos hc]
          exact solveGen_pairwise valid regs fuel (pos + 1) (b.set pos (some i))
            (by rw [List.length_set]; omega) (by rw [List.length_set]; omega)
            (emptyFrom_set he _)
        · rw [if_neg hc]
          simp
      · refine List.Pairwise.map _ ?_ (show digitsList.Pairwise (· < ·) by decide)
        intro i j hij x hx y hy
        by_cases hci : checkCell valid regs pos (b.set pos (some i))
        case neg => rw [if_neg hci] at hx; simp at hx
        by_cases hcj : checkCell valid regs pos (b.set pos (some j))
        case neg => rw [if_neg hcj] at hy; simp at hy
        rw [if_pos hci] at hx
        rw [if_pos hcj] at hy
        obtain ⟨hxlen, hxlow, _⟩ := solveGen_mem_fst valid regs fuel (pos + 1)
          (b.set pos (some i)) x (by rw [List.length_set]; omega) (emptyFrom_set he _) hx
        obtain ⟨hylen, hylow, _⟩ := solveGen_mem_fst valid regs fuel (pos + 1)
          (b.set pos (some j)) y (by rw [List.length_set]; omega) (emptyFrom_set he _) hy
        have hxp : x.getD pos none = some i := by
          rw [hxlow pos (by omega), getD_set_self b pos (some i) hlt]
        have hyp : y.getD pos none = some j := by
          rw [hylow pos (by omega), getD_set_self b pos (some j) hlt]
        refine boardLex_of ?_ ?_ ?_ hxp hyp hij
        · rw [hxlen, hylen]
          simp
        · rw [hxlen, List.length_set]
          exact hlt
        · intro m hm
          rw [hxlow m (by omega), hylow m (by omega),
            getD_set_ne b (some i) (by omega), getD_set_ne b (some j) (by omega)]

/-! ### Soundness of the partial-validity pruning -/

theorem product_eq_prod (l : List Int) : product l = l.prod :=
  (List.prod_eq_foldl).symm

theorem sublist_sum_lt {l1 l2 : List Int} (h : List.Sublist l1 l2)
    (hpos : ∀ x ∈ l2, (1 : Int) ≤ x) (hlen : l1.length < l2.length) :
    l1.sum < l2.sum := by
  induction h with
  | slnil => simp at hlen
  | cons a h ih =>
    rename_i m1 m2
    have ha : (1 : Int) ≤ a := hpos a (by simp)
    have hpos2 : ∀ x ∈ m2, (1 : Int) ≤ x := fun x hx => hpos x (by simp [hx])
    rcases Nat.lt_or_ge m1.length m2.length with hl | hl
    · have := ih hpos2 hl
      simp only [List.sum_cons]
      have hs2 : (0 : Int) ≤ a := by omega
      omega
    · have hll : m1.length = m2.length := by
        have := h.length_le
        omega
      rw [h.eq_of_length hll]
      simp only [List.sum_cons]
      omega
  | cons₂ a h ih =>
    rename_i m1 m2
    have hpos2 : ∀ x ∈ m2, (1 : Int) ≤ x := fun x hx => hpos x (by simp [hx])
    have := ih hpos2 (by simpa using hlen)
    simp only [List.sum_cons]
    omega

theorem dedup_length_iff {l : List Int} : l.dedup.length = l.length ↔ l.Nodup := by
  constructor
  · intro h
    have hs := List.dedup_sublist l
    rw [← hs.eq_of_length h]
    exact l.nodup_dedup
  · intro h
    rw [List.dedup_eq_self.mpr h]

/-- If a partially filled region can still grow into fully valid
squares (its current squares are a proper sub-multiset of fully valid
ones consisting of positive values), then its partial check accepts. -/
theorem partvalid_of_hope {r : Region} {b1 sol : Board}
    (hsub : List.Sublist (r.getsquares b1) (r.getsquares sol))
    (hlen : (r.getsquares b1).length < (r.getsquares sol).length)
    (hpos1 : ∀ x ∈ r.getsquares sol, (1 : Int) ≤ x)
    (hfull : r.fullvalid (r.getsquares sol) = true) :
    r.partvalid (r.getsquares b1) = true := by
  cases r with
  | PlusRegion t ps =>
    simp only [Region.fullvalid, beq_iff_eq] at hfull
    simp only [Region.partvalid, decide_eq_true_eq]
    rw [← hfull]
    exact sublist_sum_lt hsub hpos1 hlen
  | TimesRegion t ps =>
    simp only [Region.fullvalid, beq_iff_eq] at hfull
    simp only [Region.partvalid, beq_iff_eq]
    have hd : (Region.getsquares (.TimesRegion t ps) b1).prod ∣
        (Region.getsquares (.TimesRegion t ps) sol).prod := hsub.prod_dvd_prod
    rw [product_eq_prod] at hfull ⊢
    rw [hfull] at hd
    exact Int.emod_eq_zero_of_dvd hd
  | MinusRegion t ps => rfl
  | DivideRegion t ps => rfl
  | SudokuRegion ps =>
    simp only [Region.fullvalid, beq_iff_eq] at hfull
    simp only [Region.partvalid, Region.fullvalid, beq_iff_eq]
    have hnd : (Region.getsquares (.SudokuRegion ps) sol).Nodup :=
      dedup_length_iff.mp hfull
    exact dedup_length_iff.mpr (hnd.sublist hsub)

/-- `isvalidNP` reads the board only through `getsquares`. -/
theorem isvalidNP_congr {r : Region} {a b : Board}
    (h : r.getsquares a = r.getsquares b) : isvalidNP r a = isvalidNP r b := by
  simp only [isvalidNP, h]

theorem isvalidNP_of_filled {r : Region} {b : Board}
    (h : ∀ q ∈ r.positions, ∃ d, b.getD q none = some d ∧ d ≠ 0) :
    isvalidNP r b = r.fullvalid (r.getsquares b) := by
  simp only [isvalidNP]
  rw [if_pos]
  exact getsquaresAux_length_of_filled h

/-- Any cell state accepted with partial checks enabled is accepted
when every partial check is replaced by the constant true. -/
theorem checkCell_np_mono {regs : RegIndex} {pos : Nat} {b1 : Board}
    (h : checkCell Region.isvalid regs pos b1 = true) :
    checkCell isvalidNP regs pos b1 = true := by
  rw [checkCell, List.all_eq_true] at h ⊢
  intro r hr
  have hv := h r hr
  simp only at hv ⊢
  rw [Region.isvalid] at hv
  rw [isvalidNP]
  by_cases hfull : (r.getsquares b1).length = r.size
  · rw [if_pos hfull] at hv ⊢
    exact hv
  · rw [if_neg hfull]

/-- When the pruned check rejects a state the unpruned check accepts,
some region of the cell is partially filled and fails its partial
check. -/
theorem checkCell_np_mixed {regs : RegIndex} {pos : Nat} {b1 : Board}
    (hc : checkCell Region.isvalid regs pos b1 = false)
    (hnp : checkCell isvalidNP regs pos b1 = true) :
    ∃ r ∈ regs.getD pos [], (r.getsquares b1).length ≠ r.size ∧
      r.partvalid (r.getsquares b1) = false := by
  rw [checkCell, List.all_eq_false] at hc
  obtain ⟨r, hr, hv⟩ := hc
  rw [checkCell, List.all_eq_true] at hnp
  have hvnp := hnp r hr
  simp only [Bool.not_eq_true] at hv
  simp only at hv hvnp
  rw [Region.isvalid] at hv
  rw [isvalidNP] at hvnp
  by_cases hfull : (r.getsquares b1).length = r.size
  · rw [if_pos hfull] at hv hvnp
    rw [hv] at hvnp
    simp at hvnp
  · rw [if_neg hfull] at hv
    exact ⟨r, hr, hfull, hv⟩

/-- The digits are positive and nonzero. -/
theorem digits_pos : ∀ d ∈ digitsList, (1 : Int) ≤ d ∧ d ≠ 0 := by decide

/-- If after committing a digit at `pos` some region of the cell is
partially filled and fails its partial check, the subtree explored by
the unpruned search from that state yields no solution: the region is
fully checked deeper along every such path and must fail there. -/
theorem solveGenNP_nil {regs : RegIndex} (hwf : WFIndex regs) {r : Region}
    {fuel pos : Nat} {b1 : Board} (hb1len : b1.length = 64)
    (hfuel : 64 ≤ (pos + 1) + fuel)
    (hfb : filledBelow (pos + 1) b1) (hef : emptyFrom (pos + 1) b1)
    (hr : r ∈ regs.getD pos [])
    (hnotfull : (r.getsquares b1).length ≠ r.size)
    (hpart : r.partvalid (r.getsquares b1) = false) :
    (solveGen isvalidNP fuel b1 regs (pos + 1)).1 = [] := by
  rw [List.eq_nil_iff_forall_not_mem]
  intro sol hm
  obtain ⟨hslen, hslow, hshigh⟩ := solveGen_mem_fst isvalidNP regs fuel (pos + 1)
    b1 sol (by omega) hef hm
  have hchecks := solveGen_checks isvalidNP regs fuel (pos + 1) b1 sol
    (by omega) hef hm
  have hsol_fill : ∀ j, j < 64 → ∃ d, d ∈ digitsList ∧ sol.getD j none = some d := by
    intro j hj
    rcases Nat.lt_or_ge j (pos + 1) with h | h
    · obtain ⟨d, hd, hbd⟩ := hfb j (by omega) h
      exact ⟨d, hd, by rw [hslow j h]; exact hbd⟩
    · exact hshigh j h (by omega)
  have h64 : regs.length = 64 := hwf.1
  have hp : pos < regs.length := by
    by_contra hcon
    rw [List.getD_eq_default regs [] (by omega)] at hr
    simp at hr
  have he_mem : regs.getD pos [] ∈ regs := by
    rw [List.getD_eq_getElem regs [] hp]
    exact List.getElem_mem hp
  have hprops := hwf.2.1 _ he_mem r hr
  have hps : r.positions ≠ [] := by
    intro h0
    apply hnotfull
    rw [Region.getsquares, Region.size, h0]
    rfl
  obtain ⟨m, hm_mem, hmax⟩ := exists_max_nat r.positions hps
  obtain ⟨hm64, hm_in⟩ := hprops m hm_mem
  have hm_ge : pos + 1 ≤ m := by
    by_contra hcon
    apply hnotfull
    rw [Region.getsquares, Region.size]
    apply getsquaresAux_length_of_filled
    intro q hq
    have hq64 := (hprops q hq).1
    have hqm := hmax q hq
    obtain ⟨d, hd, hbd⟩ := hfb q (by omega) (by omega)
    exact ⟨d, hbd, (digits_pos d hd).2⟩
  have hfilled_sol : ∀ q ∈ r.positions, ∃ d, sol.getD q none = some d ∧ d ≠ 0 := by
    intro q hq
    obtain ⟨d, hd, hbd⟩ := hsol_fill q (hprops q hq).1
    exact ⟨d, hbd, (digits_pos d hd).2⟩
  have hc := hchecks m hm_ge (by omega)
  have hv := List.all_eq_true.mp hc r hm_in
  have hsq : r.getsquares (truncAt (m + 1) sol) = r.getsquares sol := by
    rw [Region.getsquares, Region.getsquares]
    apply getsquaresAux_congr
    intro q hq
    rw [getD_truncAt, if_pos (by have := hmax q hq; omega)]
  have hnp_full : r.fullvalid (r.getsquares sol) = true := by
    rw [isvalidNP_congr hsq] at hv
    rw [isvalidNP_of_filled hfilled_sol] at hv
    exact hv
  have hsub : List.Sublist (r.getsquares b1) (r.getsquares sol) := by
    rw [Region.getsquares, Region.getsquares]
    apply getsquaresAux_sublist
    intro q hq
    rcases Nat.lt_or_ge q (pos + 1) with h | h
    · right
      exact (hslow q h).symm
    · left
      rcases Nat.lt_or_ge q 64 with h2 | h2
      · exact hef q (by omega) h
      · exact getD_of_length_le (by omega)
  have hlen_lt : (r.getsquares b1).length < (r.getsquares sol).length := by
    have hfull_len : (r.getsquares sol).length = r.size := by
      rw [Region.getsquares, Region.size]
      exact getsquaresAux_length_of_filled hfilled_sol
    have := hsub.length_le
    omega
  have hpos1 : ∀ x ∈ r.getsquares sol, (1 : Int) ≤ x := by
    intro x hx
    obtain ⟨q, hq, hbq⟩ := mem_getsquaresAux hx
    obtain ⟨d, hd, hbd⟩ := hsol_fill q (hprops q hq).1
    have hxd : x = d := by
      rw [hbq] at hbd
      exact Option.some_inj.mp hbd.symm |>.symm
    rw [hxd]
    exact (digits_pos d hd).1
  have := partvalid_of_hope hsub hlen_lt hpos1 hnp_full
  rw [hpart] at this
  simp at this

/-- The pruned and the unpruned searches yield the same solution lists
from any state reachable in a search over a well-formed index. -/
theorem solveGen_np_eq {regs : RegIndex} (hwf : WFIndex regs) :
    ∀ (fuel pos : Nat) (b : Board), b.length = 64 → 64 ≤ pos + fuel → pos ≤ 64 →
      filledBelow pos b → emptyFrom pos b →
      (solveGen Region.isvalid fuel b regs pos).1 = (solveGen isvalidNP fuel b regs pos).1
  | 0, pos, b, _, _, _, _, _ => rfl
  | fuel + 1, pos, b, hblen, hfuel, hpos, hfb, hef => by
    by_cases hp : pos = b.length
    · rw [solveGen, solveGen]
      simp [hp]
    · have hlt : pos < 64 := by omega
      rw [solveGen_shape Region.isvalid hp hef, solveGen_shape isvalidNP hp hef,
        List.flatMap_def, List.flatMap_def]
      congr 1
      apply List.map_congr_left
      intro i hi
      by_cases hc : checkCell Region.isvalid regs pos (b.set pos (some i))
      · rw [if_pos hc, if_pos (checkCell_np_mono hc)]
        exact solveGen_np_eq hwf fuel (pos + 1) (b.set pos (some i))
          (by rw [List.length_set]; omega) (by omega) (by omega)
          (filledBelow_set hfb hi (by omega)) (emptyFrom_set hef _)
      · by_cases hcnp : checkCell isvalidNP regs pos (b.set pos (some i))
        · rw [if_neg hc, if_pos hcnp]
          obtain ⟨r, hr, hnf, hpart⟩ :=
            checkCell_np_mixed (Bool.not_eq_true _ ▸ (by exact hc)) hcnp
          exact (solveGenNP_nil hwf (by rw [List.length_set]; omega) (by omega)
            (filledBelow_set hfb hi (by omega)) (emptyFrom_set hef _)
            hr hnf hpart).symm
        · rw [if_neg hc, if_neg hcnp]

/-! ### The maximum helpers of regions.py -/

theorem foldl_max_ge_init : ∀ (xs : List Int) (a : Int), a ≤ xs.foldl max a
  | [], _ => le_refl _
  | x :: xs, a =>
    le_trans (le_max_left a x) (foldl_max_ge_init xs (max a x))

theorem foldl_max_ge_mem : ∀ (xs : List Int) (a : Int), ∀ x ∈ xs, x ≤ xs.foldl max a
  | x :: xs, a, y, hy => by
    rcases List.mem_cons.mp hy with rfl | hy
    · exact le_trans (le_max_right a y) (foldl_max_ge_init xs (max a y))
    · exact foldl_max_ge_mem xs (max a x) y hy

theorem foldl_max_mem : ∀ (xs : List Int) (a : Int), xs.foldl max a = a ∨ xs.foldl max a ∈ xs
  | [], _ => Or.inl rfl
  | x :: xs, a => by
    rcases foldl_max_mem xs (max a x) with h | h
    · rcases max_choice a x with hm | hm
      · left
        rw [List.foldl_cons, h, hm]
      · right
        rw [List.foldl_cons, h, hm]
        simp
    · right
      rw [List.foldl_cons]
      exact List.mem_cons.mpr (Or.inr h)

/-- Python's `max` of a non-empty list is a member. -/
theorem list_max_mem : ∀ {l : List Int}, l ≠ [] → list_max l ∈ l
  | [], h => absurd rfl h
  | x :: xs, _ => by
    rw [list_max]
    rcases foldl_max_mem xs x with h | h
    · rw [h]
      simp
    · exact List.mem_cons.mpr (Or.inr h)

/-- Python's `max` of a list bounds every member. -/
theorem list_max_ge {l : List Int} : ∀ x ∈ l, x ≤ list_max l := by
  cases l with
  | nil => intro x hx; simp at hx
  | cons y ys =>
    intro x hx
    rw [list_max]
    rcases List.mem_cons.mp hx with rfl | hx
    · exact foldl_max_ge_init ys x
    · exact foldl_max_ge_mem ys y x hx

/-- `skip_one` computes `List.erase`: drop the first occurrence. -/
theorem skip_one_eq_erase : ∀ (l : List Int) (a : Int), skip_one l a = l.erase a
  | [], a => by simp [skip_one]
  | x :: xs, a => by
    by_cases h : x = a
    · subst h
      simp [skip_one, List.erase_cons]
    · simp [skip_one, h, List.erase_cons, skip_one_eq_erase xs a, Ne.symm h]

/-! ### The claims -/

/-- C1: for every well-formed region index, every board yielded by
`solve` is fully assigned with digits 1-8, and every region in the
region index reports full-validity true when `isvalid` is evaluated
directly against that yielded board (on a full board `isvalid` takes
the full-validity branch). -/
theorem C1_solutions_full_and_valid (regs : RegIndex) (hwf : WFIndex regs) :
    ∀ sol ∈ Backtrack.solve regs,
      (sol.length = 64 ∧ ∀ j, j < 64 → ∃ d, d ∈ digitsList ∧ sol.getD j none = some d) ∧
      (∀ p, ∀ r ∈ regs.getD p [], r.isvalid sol = true) := by
  intro sol hm
  obtain ⟨h1, h2, h3⟩ := solve_sound hwf hm
  exact ⟨⟨h1, h2⟩, h3⟩

/-- Witness for C1 at the concrete singleton puzzle. -/
theorem C1_witness :
    WFIndex singletonRegs ∧
      (∀ sol ∈ Backtrack.solve singletonRegs,
        (sol.length = 64 ∧ ∀ j, j < 64 → ∃ d, d ∈ digitsList ∧ sol.getD j none = some d) ∧
        (∀ p, ∀ r ∈ singletonRegs.getD p [], r.isvalid sol = true)) :=
  ⟨by decide, C1_solutions_full_and_valid singletonRegs (by decide)⟩

/-- C2: for every well-formed region index, the pruned search (partial
checks of the Sum, Product and uniqueness kinds enabled; Difference and
Quotient default to true) yields exactly the same list of solution
boards as the search in which every partial-validity check is replaced
by the constant true. -/
theorem C2_pruning_sound (regs : RegIndex) (hwf : WFIndex regs) :
    Backtrack.solve regs = solveNP regs := by
  rw [backtrack_solve_eq, solveNP]
  exact solveGen_np_eq hwf 65 0 _ (by simp) (by omega) (by omega)
    filledBelow_start emptyFrom_start

/-- Witness for C2 at the concrete singleton puzzle. -/
theorem C2_witness :
    WFIndex singletonRegs ∧ Backtrack.solve singletonRegs = solveNP singletonRegs :=
  ⟨by decide, C2_pruning_sound singletonRegs (by decide)⟩

/-- C3: for every region index, the sequence of solution boards yielded
by `solve` is strictly ascending in lexicographic order when each board
is read as a digit sequence with position 0 most significant. -/
theorem C3_lex_ascending (regs : RegIndex) :
    (Backtrack.solve regs).Pairwise boardLex := by
  rw [backtrack_solve_eq]
  exact solveGen_pairwise Region.isvalid regs 65 0 _ (by simp) (by simp) emptyFrom_start

/-- C4: `solve` is deterministic.  The search is a pure function of the
region index; in particular the threaded progress fraction (the only
engine state beyond the board) never influences the yielded sequence,
so two invocations on the identical region index produce the identical
ordered sequence of solutions. -/
theorem C4_deterministic (regs : RegIndex) (f g : ℚ) :
    (Backtrack.solveAux 65 (List.replicate 64 none) regs 0 f).1 =
      (Backtrack.solveAux 65 (List.replicate 64 none) regs 0 g).1 ∧
    (Backtrack.solveAux 65 (List.replicate 64 none) regs 0 f).1 = Backtrack.solve regs := by
  rw [Backtrack.solve, backtrack_solveAux_eq, backtrack_solveAux_eq, backtrack_solveAux_eq]
  exact ⟨rfl, rfl⟩

/-- C5: `solve` terminates on every region index with a finite list of
at most `8 ^ 64` solutions, and a puzzle with no solution gives an
empty list rather than an error (if the list is non-empty its members
are genuine solutions, so emptiness is forced when none exists). -/
theorem C5_terminating_and_bounded (regs : RegIndex) :
    (Backtrack.solve regs).length ≤ 8 ^ 64 ∧
    (WFIndex regs → Backtrack.solve regs ≠ [] → ∃ b, isSolution regs b) := by
  constructor
  · rw [backtrack_solve_eq]
    have := solveGen_fst_length Region.isvalid regs 65 0 _ (by simp) (by simp)
      emptyFrom_start
    simpa using this
  · intro hwf hne
    obtain ⟨sol, hm⟩ := List.exists_mem_of_ne_nil _ hne
    exact ⟨sol, solve_sound hwf hm⟩

set_option maxRecDepth 1000000 in
/-- Witness for C5 at the concrete singleton puzzle. -/
theorem C5_witness :
    (Backtrack.solve singletonRegs).length ≤ 8 ^ 64 ∧
      ∃ b, isSolution singletonRegs b :=
  ⟨(C5_terminating_and_bounded singletonRegs).1,
    (C5_terminating_and_bounded singletonRegs).2 (by decide)
      (by decide)⟩

/-- C6: during the search only cells below the current depth are
filled.  On a board empty from `pos` on, the engine returns the board
exactly as received (after trying all 8 digits it clears cell `pos`),
and each board entering a recursive call at `pos + 1` is again empty
from `pos + 1` on and, when the received board was filled with digits
below `pos`, filled with digits below `pos + 1`. -/
theorem C6_fill_invariant (regs : RegIndex) (fuel pos : Nat) (b : Board) (f : ℚ)
    (he : emptyFrom pos b) :
    (Backtrack.solveAux fuel b regs pos f).2 = b ∧
    (∀ i ∈ digitsList, emptyFrom (pos + 1) (b.set pos (some i)) ∧
      (pos < b.length → filledBelow pos b → filledBelow (pos + 1) (b.set pos (some i)))) := by
  constructor
  · rw [backtrack_solveAux_eq]
    exact solveGen_snd Region.isvalid fuel b regs pos he
  · intro i hi
    exact ⟨emptyFrom_set he _, fun hlt hfb => filledBelow_set hfb hi hlt⟩

/-- Witness for C6 at the concrete singleton puzzle and start state. -/
theorem C6_witness :
    (Backtrack.solveAux 65 (List.replicate 64 none) singletonRegs 0 0).2 =
      List.replicate 64 none ∧
    (∀ i ∈ digitsList, emptyFrom 1 ((List.replicate 64 none).set 0 (some i)) ∧
      (0 < (List.replicate 64 (none : Option Int)).length →
        filledBelow 0 (List.replicate 64 none) →
        filledBelow 1 ((List.replicate 64 none).set 0 (some i)))) :=
  C6_fill_invariant singletonRegs 65 0 (List.replicate 64 none) 0 (by decide)

/-- C7, amended: a region with at least one position, none of whose
positions is filled, is accepted by `isvalid`, unless it is a Sum
region with target `≤ 0` (whose partial check `sum(squares) < target`
fails already on the empty square list). -/
theorem C7_empty_region_accepts (r : Region) (b : Board) (hps : r.positions ≠ [])
    (ht : plusTargetOK r = true)
    (hempty : ∀ q ∈ r.positions, b.getD q none = none) :
    r.isvalid b = true := by
  have hsq : r.getsquares b = [] := by
    rw [Region.getsquares]
    exact getsquaresAux_nil_of_none hempty
  simp only [Region.isvalid, hsq]
  rw [if_neg (by
    simp only [List.length_nil, Region.size]
    intro h0
    exact hps (List.length_eq_zero.mp h0.symm))]
  cases r with
  | PlusRegion t ps =>
    have h0t : (0 : Int) < t := of_decide_eq_true ht
    simp [Region.partvalid, h0t]
  | TimesRegion t ps =>
    simp [Region.partvalid, product, Int.emod_one]
  | MinusRegion t ps => rfl
  | DivideRegion t ps => rfl
  | SudokuRegion ps => simp [Region.partvalid, Region.fullvalid]

/-- Counterexample to C7 as stated: a Sum region with target 0 and one
position is rejected by `isvalid` on a board where none of its
positions is filled. -/
theorem C7_counterexample :
    (∀ q ∈ (Region.PlusRegion 0 [0]).positions,
      (List.replicate 64 (none : Option Int)).getD q none = none) ∧
    (Region.PlusRegion 0 [0]).isvalid (List.replicate 64 none) = false := by
  decide

/-- Witness for the amended C7 on a concrete region and empty board. -/
theorem C7_witness :
    ((Region.PlusRegion 1 [0]).positions ≠ [] ∧
      plusTargetOK (Region.PlusRegion 1 [0]) = true ∧
      (∀ q ∈ (Region.PlusRegion 1 [0]).positions,
        (List.replicate 64 (none : Option Int)).getD q none = none)) ∧
    (Region.PlusRegion 1 [0]).isvalid (List.replicate 64 none) = true :=
  ⟨⟨by decide, by decide, by decide⟩,
    C7_empty_region_accepts _ _ (by decide) (by decide) (by decide)⟩

/-- C8: a Quotient region whose positions are all filled with digits
1-8 is accepted by `isvalid` exactly when `m * target` equals the
product of the other filled values, `m` being the maximum filled value
and the rest having one occurrence of the maximum removed.  The check
is stated, like the code computes it, with multiplication over ℤ only:
no division and no floating point. -/
theorem C8_quotient_check (t : Int) (ps : List Nat) (b : Board) (hps : ps ≠ [])
    (hfill : ∀ q ∈ ps, ∃ d, d ∈ digitsList ∧ b.getD q none = some d) :
    ((Region.DivideRegion t ps).isvalid b = true ↔
      ∃ m ∈ (Region.DivideRegion t ps).getsquares b,
        (∀ x ∈ (Region.DivideRegion t ps).getsquares b, x ≤ m) ∧
        m * t = (((Region.DivideRegion t ps).getsquares b).erase m).prod) := by
  have hfilled : ∀ q ∈ (Region.DivideRegion t ps).positions,
      ∃ d, b.getD q none = some d ∧ d ≠ 0 := by
    intro q hq
    obtain ⟨d, hd, hbd⟩ := hfill q hq
    exact ⟨d, hbd, (digits_pos d hd).2⟩
  rw [isvalid_of_filled hfilled]
  have hsqlen : ((Region.DivideRegion t ps).getsquares b).length = ps.length := by
    rw [Region.getsquares]
    exact getsquaresAux_length_of_filled hfilled
  have hsqne : (Region.DivideRegion t ps).getsquares b ≠ [] := by
    intro h0
    rw [h0] at hsqlen
    exact hps (List.length_eq_zero.mp hsqlen.symm)
  have hfv : Region.fullvalid (.DivideRegion t ps)
        ((Region.DivideRegion t ps).getsquares b) =
      (list_max ((Region.DivideRegion t ps).getsquares b) * t ==
        product (skip_one ((Region.DivideRegion t ps).getsquares b)
          (list_max ((Region.DivideRegion t ps).getsquares b)))) := rfl
  rw [hfv]
  constructor
  · intro h
    refine ⟨list_max _, list_max_mem hsqne, list_max_ge, ?_⟩
    rw [← skip_one_eq_erase, ← product_eq_prod]
    exact (beq_iff_eq.mp h)
  · rintro ⟨m, hmem, hge, heq⟩
    have hm : m = list_max ((Region.DivideRegion t ps).getsquares b) :=
      le_antisymm (list_max_ge m hmem) (hge _ (list_max_mem hsqne))
    subst hm
    rw [beq_iff_eq, skip_one_eq_erase, product_eq_prod]
    exact heq

/-- Witness for C8 on a concrete full Quotient region (squares [2,2],
target 1: maximum 2, rest [2], and 2 * 1 = 2). -/
theorem C8_witness :
    ((([0, 1] : List Nat) ≠ []) ∧
      (∀ q ∈ ([0, 1] : List Nat), ∃ d, d ∈ digitsList ∧
        (([some 2, some 2] ++ List.replicate 62 none : Board)).getD q none = some d)) ∧
    ((Region.DivideRegion 1 [0, 1]).isvalid
        ([some 2, some 2] ++ List.replicate 62 none) = true ↔
      ∃ m ∈ (Region.DivideRegion 1 [0, 1]).getsquares
          ([some 2, some 2] ++ List.replicate 62 none),
        (∀ x ∈ (Region.DivideRegion 1 [0, 1]).getsquares
          ([some 2, some 2] ++ List.replicate 62 none), x ≤ m) ∧
        m * 1 = (((Region.DivideRegion 1 [0, 1]).getsquares
          ([some 2, some 2] ++ List.replicate 62 none)).erase m).prod) :=
  ⟨⟨by decide, by decide⟩, C8_quotient_check 1 [0, 1] _ (by decide) (by decide)⟩

set_option maxRecDepth 1000000 in
/-- With the aliasing yield of interf.py, a consumer that mutates the
board it was handed changes the subsequently yielded boards: on
`pairRegs`, writing 2 into cell 5 at each yield makes every solution
after the first carry that 2. -/
theorem consumer_alias_sensitive :
    Consumer.solve true mutateCell5 pairRegs ≠
      Consumer.solve true (fun b => b) pairRegs := by
  decide

/-- C9, amended: `backtrack.solve` (and solve.py's `solve`) yield fresh
copies, so the yielded sequence is unaffected by any consumer mutation
of the yielded boards; `interf.solve` instead yields the shared
internal board, and a consumer mutation of a yielded board does change
subsequently yielded boards. -/
theorem C9_copy_isolation :
    (∀ (regs : RegIndex) (mutate : Board → Board),
      Consumer.solve false mutate regs = Backtrack.solve regs) ∧
    (∃ (regs : RegIndex) (mutate : Board → Board),
      Consumer.solve true mutate regs ≠ Consumer.solve true (fun b => b) regs) := by
  constructor
  · intro regs mutate
    rw [Consumer.solve, consumer_solveAux_eq, backtrack_solve_eq]
  · exact ⟨pairRegs, mutateCell5, consumer_alias_sensitive⟩

/-- Counterexample to C9 as stated over all three engine revisions: for
interf.py's aliasing yield, mutating a yielded board does affect the
subsequently yielded boards. -/
theorem C9_counterexample :
    Consumer.solve true mutateCell5 pairRegs ≠
      Consumer.solve true (fun b => b) pairRegs :=
  consumer_alias_sensitive

/-- C10: with progress reporting disabled, backtrack.py's `solve` and
solve.py's `solve` yield the identical ordered sequence of solution
boards on every region index. -/
theorem C10_revisions_equivalent (regs : RegIndex) :
    Backtrack.solve regs = SolveMod.solve regs := by
  rw [Backtrack.solve, SolveMod.solve, backtrack_solveAux_eq, solvemod_solveAux_eq]
